import Mathlib

/-!
Verification of the benchmark kernels of the repository: the sequential
six-nested-loop 2D convolution (gem5 driver), the CUDA convolution for
GPGPU-Sim, and the tiled shared-memory GEMM CUDA kernel.

Machine `float` values are modelled as exact rationals `ℚ` (the claims are
about the algorithmic structure of the accumulations); C `int` values are
modelled as `Int`.  Flat buffers are modelled as total functions `Int → ℚ`;
a C store `buf[i] = v` becomes `Function.update buf i v`.  C integer
division `/` truncates toward zero; every division occurring in the code
has nonnegative operands, where it agrees with Lean's `Int` division.
-/

/-- C-style loop `for (x = lo; x < hi; x++) s = body(x, s)` over `Int`
counters, threading a state `s : σ`.  The bound `hi` is fixed on entry and
the counter strictly increases, so the loop terminates for every `Int`
choice of `lo` and `hi`. -/
def forLoop {σ : Type} (body : Int → σ → σ) (hi : Int) (lo : Int) (s : σ) : σ :=
  if h : lo < hi then forLoop body hi (lo + 1) (body lo s) else s
termination_by (hi - lo).toNat
decreasing_by simp_wf; omega

/-- Unfolding a `forLoop` starting at 0 into a left fold over `List.range`. -/
theorem forLoop_eq_foldl {σ : Type} (body : Int → σ → σ) (hi : Int) :
    ∀ (lo : Int) (s : σ),
      forLoop body hi lo s =
        (List.range (hi - lo).toNat).foldl (fun t (i : ℕ) => body (lo + (i : Int)) t) s := by
  intro lo s
  generalize hn : (hi - lo).toNat = n
  induction n generalizing lo s with
  | zero =>
    rw [forLoop, dif_neg (by omega)]
    simp
  | succ n ih =>
    rw [forLoop, dif_pos (by omega)]
    rw [ih (lo + 1) (body lo s) (by omega)]
    have hfun : (fun (t : σ) (i : ℕ) => body (lo + ((Nat.succ i : ℕ) : Int)) t)
        = fun (t : σ) (i : ℕ) => body ((lo + 1) + (i : Int)) t := by
      funext t i
      congr 1
      push_cast
      ring
    rw [List.range_succ_eq_map, List.foldl_cons, List.foldl_map, hfun]
    norm_num

/-- A fold that only accumulates additions is a `Finset` sum. -/
theorem foldl_add_sum {M : Type} [AddCommMonoid M] (g : ℕ → M) (n : ℕ) (a : M) :
    (List.range n).foldl (fun s i => s + g i) a = a + ∑ i ∈ Finset.range n, g i := by
  induction n with
  | zero => simp
  | succ n ih =>
    rw [List.range_succ, List.foldl_append, ih, Finset.sum_range_succ]
    simp [add_assoc]

/-- `forLoop` version of `foldl_add_sum`, for loops running from 0. -/
theorem forLoop_add {M : Type} [AddCommMonoid M] (g : Int → M) (n : Int) (a : M) :
    forLoop (fun i s => s + g i) n 0 a = a + ∑ i ∈ Finset.range n.toNat, g ((i : ℕ) : Int) := by
  rw [forLoop_eq_foldl]
  simp only [sub_zero, zero_add]
  exact foldl_add_sum (fun i => g (i : Int)) n.toNat a

/-- Folding over a concatenation of blocks, elementwise. -/
theorem foldl_flatMap {α β σ : Type} (l : List α) (g : α → List β) (f : σ → β → σ) (a : σ) :
    (l.flatMap g).foldl f a = l.foldl (fun s x => (g x).foldl f s) a := by
  induction l generalizing a with
  | nil => simp
  | cons x xs ih => simp [List.flatMap_cons, List.foldl_append, ih]

/-- A fold of stores at addresses all different from `x` leaves `f x` unchanged. -/
theorem foldl_update_of_ne {α : Type} (enc : α → Int) (val : α → ℚ) (x : Int) :
    ∀ (l : List α) (f : Int → ℚ), (∀ a ∈ l, enc a ≠ x) →
      (l.foldl (fun g a => Function.update g (enc a) (val a)) f) x = f x := by
  intro l
  induction l with
  | nil => intro f _; rfl
  | cons a t ih =>
    intro f h
    simp only [List.foldl_cons]
    rw [ih _ (fun b hb => h b (List.mem_cons_of_mem a hb))]
    exact Function.update_noteq (Ne.symm (h a (List.mem_cons_self a t))) _ f

/-- A fold of stores, at addresses that are injective images of the list
elements, yields at address `enc a₀` the value stored for `a₀`. -/
theorem foldl_update_of_mem {α : Type} (enc : α → Int) (val : α → ℚ) (a₀ : α) :
    ∀ (l : List α) (f : Int → ℚ), a₀ ∈ l → (∀ a ∈ l, enc a = enc a₀ → a = a₀) →
      (l.foldl (fun g a => Function.update g (enc a) (val a)) f) (enc a₀) = val a₀ := by
  intro l
  induction l with
  | nil => intro f h _; cases h
  | cons a t ih =>
    intro f hmem hinj
    simp only [List.foldl_cons]
    by_cases hat : a₀ ∈ t
    · exact ih _ hat (fun b hb he => hinj b (List.mem_cons_of_mem a hb) he)
    · have ha : a = a₀ := by
        rcases List.mem_cons.mp hmem with h | h
        · exact h.symm
        · exact absurd h hat
      subst ha
      rw [foldl_update_of_ne enc val (enc a) t _ ?_]
      · exact Function.update_same (enc a) (val a) f
      · intro b hb hbe
        exact absurd (hinj b (List.mem_cons_of_mem a hb) hbe ▸ hb) hat

/-- A fold whose body acts only when a guard holds is a fold over the filtered list. -/
theorem foldl_guard_filter {α σ : Type} (p : α → Prop) [DecidablePred p] (f : σ → α → σ) :
    ∀ (l : List α) (a : σ),
      l.foldl (fun s x => if p x then f s x else s) a
        = (l.filter (fun x => decide (p x))).foldl f a := by
  intro l
  induction l with
  | nil => intro a; rfl
  | cons x t ih =>
    intro a
    by_cases hx : p x
    · rw [List.foldl_cons, if_pos hx, ih, List.filter_cons, if_pos (by simp [hx]),
        List.foldl_cons]
    · rw [List.foldl_cons, if_neg hx, ih, List.filter_cons, if_neg (by simp [hx])]

/-- All pairs `(a, b)` with `a < n₁`, `b < n₂`, enumerated in row-major order. -/
def rangePairs (n₁ n₂ : ℕ) : List (ℕ × ℕ) :=
  (List.range n₁).flatMap fun a => (List.range n₂).map fun b => (a, b)

/-- All triples `(a, b, c)` with `a < n₁`, `b < n₂`, `c < n₃`, row-major. -/
def rangeTriples (n₁ n₂ n₃ : ℕ) : List (ℕ × ℕ × ℕ) :=
  (List.range n₁).flatMap fun a => (List.range n₂).flatMap fun b =>
    (List.range n₃).map fun c => (a, b, c)

theorem mem_rangePairs {n₁ n₂ : ℕ} {t : ℕ × ℕ} :
    t ∈ rangePairs n₁ n₂ ↔ t.1 < n₁ ∧ t.2 < n₂ := by
  obtain ⟨a, b⟩ := t
  simp only [rangePairs, List.mem_flatMap, List.mem_map, List.mem_range, Prod.mk.injEq]
  constructor
  · rintro ⟨x, hx, y, hy, hxa, hyb⟩
    exact ⟨hxa ▸ hx, hyb ▸ hy⟩
  · rintro ⟨ha, hb⟩
    exact ⟨a, ha, b, hb, rfl, rfl⟩

theorem mem_rangeTriples {n₁ n₂ n₃ : ℕ} {t : ℕ × ℕ × ℕ} :
    t ∈ rangeTriples n₁ n₂ n₃ ↔ t.1 < n₁ ∧ t.2.1 < n₂ ∧ t.2.2 < n₃ := by
  obtain ⟨a, b, c⟩ := t
  simp only [rangeTriples, List.mem_flatMap, List.mem_map, List.mem_range, Prod.mk.injEq]
  constructor
  · rintro ⟨x, hx, y, hy, z, hz, hxa, hyb, hzc⟩
    exact ⟨hxa ▸ hx, hyb ▸ hy, hzc ▸ hz⟩
  · rintro ⟨ha, hb, hc⟩
    exact ⟨a, ha, b, hb, c, hc, rfl, rfl, rfl⟩

/-- Enumerating `b < m` blocks of `n` consecutive numbers `n*b + t` is
exactly enumerating `x < n * m`. -/
theorem range_flatMap_blocks (n m : ℕ) :
    ((List.range m).flatMap fun b => (List.range n).map fun t => n * b + t)
      = List.range (n * m) := by
  induction m with
  | zero => simp
  | succ m ih =>
    rw [List.range_succ, List.flatMap_append, ih, Nat.mul_succ, List.range_add]
    simp [List.flatMap_cons]

/-- Two nested `forLoop`s from 0 are a fold over the row-major pair list. -/
theorem forLoop2_eq_foldl_pairs {σ : Type} (g : Int → Int → σ → σ) (n₁ n₂ : Int) (s : σ) :
    forLoop (fun a s1 => forLoop (fun b s2 => g a b s2) n₂ 0 s1) n₁ 0 s
      = (rangePairs n₁.toNat n₂.toNat).foldl
          (fun s t => g (t.1 : Int) (t.2 : Int) s) s := by
  rw [forLoop_eq_foldl]
  simp only [sub_zero, zero_add]
  rw [rangePairs, foldl_flatMap]
  congr 1
  funext s1 a
  rw [forLoop_eq_foldl]
  simp only [sub_zero, zero_add]
  rw [List.foldl_map]

/-- Three nested `forLoop`s from 0 are a fold over the row-major triple list. -/
theorem forLoop3_eq_foldl_triples {σ : Type} (g : Int → Int → Int → σ → σ)
    (n₁ n₂ n₃ : Int) (s : σ) :
    forLoop (fun a s1 =>
      forLoop (fun b s2 => forLoop (fun c s3 => g a b c s3) n₃ 0 s2) n₂ 0 s1) n₁ 0 s
      = (rangeTriples n₁.toNat n₂.toNat n₃.toNat).foldl
          (fun s t => g (t.1 : Int) (t.2.1 : Int) (t.2.2 : Int) s) s := by
  rw [forLoop_eq_foldl]
  simp only [sub_zero, zero_add]
  rw [rangeTriples, foldl_flatMap]
  congr 1
  funext s1 a
  rw [forLoop2_eq_foldl_pairs (fun b c s => g (a : Int) b c s) n₂ n₃ s1,
    rangePairs, foldl_flatMap, foldl_flatMap]
  congr 1
  funext s2 b
  rw [List.foldl_map, List.foldl_map]

/-- A loop over `b < m` of an inner loop over `t < 16` whose body uses
`b * 16 + t` is the same as one loop over `x < 16 * m`. -/
theorem forLoop_blocks {σ : Type} (g : Int → σ → σ) (m : Int) (hm : 0 ≤ m) (s : σ) :
    forLoop (fun b s1 => forLoop (fun t s2 => g (b * 16 + t) s2) 16 0 s1) m 0 s
      = forLoop g (16 * m) 0 s := by
  rw [forLoop_eq_foldl g, forLoop_eq_foldl]
  simp only [sub_zero, zero_add]
  have h16 : ((16 : Int) * m).toNat = 16 * m.toNat := by omega
  rw [h16, ← range_flatMap_blocks 16 m.toNat, foldl_flatMap]
  congr 1
  funext s1 b
  rw [forLoop_eq_foldl]
  simp only [sub_zero, zero_add]
  rw [List.foldl_map]
  have : ((16 : Int) : Int).toNat = 16 := rfl
  congr 1
  funext s2 t
  congr 1
  push_cast
  ring

/-- Splitting a sum over `range (m + n)` into a prefix and a shifted suffix. -/
theorem sum_range_add_shift {M : Type} [AddCommMonoid M] (f : ℕ → M) (m n : ℕ) :
    ∑ i ∈ Finset.range (m + n), f i
      = (∑ i ∈ Finset.range m, f i) + ∑ i ∈ Finset.range n, f (m + i) := by
  induction n with
  | zero => simp
  | succ n ih =>
    rw [Nat.add_succ, Finset.sum_range_succ, ih, Finset.sum_range_succ, add_assoc]

/-- Summing over `T` blocks of 16 consecutive indices is summing over `16 * T`. -/
theorem sum_blocks {M : Type} [AddCommMonoid M] (g : ℕ → M) (T : ℕ) :
    (∑ t ∈ Finset.range T, ∑ k ∈ Finset.range 16, g (16 * t + k))
      = ∑ i ∈ Finset.range (16 * T), g i := by
  induction T with
  | zero => simp
  | succ T ih =>
    rw [Finset.sum_range_succ, ih, Nat.mul_succ, sum_range_add_shift]

/-- Row-major flattening stays in bounds. -/
theorem encode_lt {a A b B : ℕ} (ha : a < A) (hb : b < B) : a * B + b < A * B := by
  have h2 : (a + 1) * B ≤ A * B := Nat.mul_le_mul_right B ha
  have h3 : (a + 1) * B = a * B + B := by ring
  linarith

/-- Row-major flattening of a pair is injective. -/
theorem encode_pair_inj {a a' b b' B : ℕ} (hb : b < B) (hb' : b' < B)
    (h : a * B + b = a' * B + b') : a = a' ∧ b = b' := by
  have ha : a = a' := by
    rcases Nat.lt_trichotomy a a' with hlt | heq | hgt
    · exfalso
      have h2 : (a + 1) * B ≤ a' * B := Nat.mul_le_mul_right B hlt
      have h3 : (a + 1) * B = a * B + B := by ring
      linarith
    · exact heq
    · exfalso
      have h2 : (a' + 1) * B ≤ a * B := Nat.mul_le_mul_right B hgt
      have h3 : (a' + 1) * B = a' * B + B := by ring
      linarith
  subst ha
  exact ⟨rfl, Nat.add_left_cancel h⟩

/-- Row-major flattening of a triple is injective. -/
theorem encode_triple_inj {Wo K h w k h' w' k' : ℕ}
    (hw : w < Wo) (hk : k < K) (hw' : w' < Wo) (hk' : k' < K)
    (he : (h * Wo + w) * K + k = (h' * Wo + w') * K + k') :
    h = h' ∧ w = w' ∧ k = k' := by
  obtain ⟨h1, h2⟩ := encode_pair_inj hk hk' he
  obtain ⟨h3, h4⟩ := encode_pair_inj hw hw' h1
  exact ⟨h3, h4, h2⟩

/-- Every flat index below `Ho * Wo * K` decodes to a row-major triple. -/
theorem exists_decode {Ho Wo K idx : ℕ} (hWo : 0 < Wo) (hK : 0 < K)
    (h : idx < Ho * Wo * K) :
    ∃ hh ww kk : ℕ, hh < Ho ∧ ww < Wo ∧ kk < K ∧ (hh * Wo + ww) * K + kk = idx := by
  refine ⟨idx / K / Wo, idx / K % Wo, idx % K, ?_, Nat.mod_lt _ hWo, Nat.mod_lt _ hK, ?_⟩
  · have h1 : idx / K < Ho * Wo := by
      rw [Nat.div_lt_iff_lt_mul hK]
      exact h
    rw [Nat.div_lt_iff_lt_mul hWo]
    exact h1
  · rw [Nat.div_add_mod' (idx / K) Wo, Nat.div_add_mod' idx K]

/-! ## Sequential conv2d (src/unnamed/part_000)

`conv2d(input, weight, output, H, W, I, J, C, K)` with
`input [H][W][C]`, `weight [I][J][C][K]`, `output [Ho][Wo][K]`,
`Ho = H - I + 1`, `Wo = W - J + 1`. -/

/-- `in_idx = ((h + i) * W + (w + j)) * C + c` (read index into `input`). -/
def in_idx (W C h w i j c : Int) : Int := ((h + i) * W + (w + j)) * C + c

/-- `wt_idx = ((i * J + j) * C + c) * K + k` (read index into `weight`). -/
def wt_idx (J C K i j c k : Int) : Int := ((i * J + j) * C + c) * K + k

/-- `out_idx = (h * Wo + w) * K + k` (write index into `output`). -/
def out_idx (Wo K h w k : Int) : Int := (h * Wo + w) * K + k

/-- The inner three loops of the sequential `conv2d` ("遍历 kernel"):
`sum += input[in_idx] * weight[wt_idx]` over `i < I`, `j < J`, `c < C`,
starting from `sum = 0.0f`. -/
def convInnerSum (input weight : Int → ℚ) (W I J C K h w k : Int) : ℚ :=
  forLoop (fun i s1 =>
    forLoop (fun j s2 =>
      forLoop (fun c s3 =>
        s3 + input (in_idx W C h w i j c) * weight (wt_idx J C K i j c k)) C 0 s2)
      J 0 s1) I 0 0

/-- Sequential `conv2d`: the outer three loops over the output feature map
(`h < Ho`, `w < Wo`, `k < K`) store the accumulated `sum` at `out_idx`. -/
def conv2d (input weight output : Int → ℚ) (H W I J C K : Int) : Int → ℚ :=
  let Ho := H - I + 1
  let Wo := W - J + 1
  forLoop (fun h f1 =>
    forLoop (fun w f2 =>
      forLoop (fun k f3 =>
        Function.update f3 (out_idx Wo K h w k)
          (convInnerSum input weight W I J C K h w k)) K 0 f2) Wo 0 f1) Ho 0 output

/-- The loop nest of `conv2d` with the innermost body replaced by a counter:
used to measure how many times the multiply-accumulate executes. -/
def conv2dCount (H W I J C K : Int) : ℕ :=
  let Ho := H - I + 1
  let Wo := W - J + 1
  forLoop (fun _ n1 =>
    forLoop (fun _ n2 =>
      forLoop (fun _ n3 =>
        forLoop (fun _ m1 =>
          forLoop (fun _ m2 =>
            forLoop (fun _ m3 => m3 + 1) C 0 m2) J 0 m1) I 0 n3) K 0 n2) Wo 0 n1) Ho 0 0

/-- The accumulation of `convInnerSum` in exact arithmetic is the triple sum
over the kernel window. -/
theorem convInnerSum_eq (input weight : Int → ℚ) (W I J C K h w k : Int) :
    convInnerSum input weight W I J C K h w k =
      ∑ i ∈ Finset.range I.toNat, ∑ j ∈ Finset.range J.toNat, ∑ c ∈ Finset.range C.toNat,
        input (in_idx W C h w (i : Int) (j : Int) (c : Int))
          * weight (wt_idx J C K (i : Int) (j : Int) (c : Int) k) := by
  unfold convInnerSum
  have hc : ∀ (i j : Int) (s : ℚ),
      forLoop (fun c s3 =>
        s3 + input (in_idx W C h w i j c) * weight (wt_idx J C K i j c k)) C 0 s
        = s + ∑ c ∈ Finset.range C.toNat,
            input (in_idx W C h w i j (c : Int)) * weight (wt_idx J C K i j (c : Int) k) :=
    fun i j s =>
      forLoop_add (fun c => input (in_idx W C h w i j c) * weight (wt_idx J C K i j c k)) C s
  simp only [hc]
  have hj : ∀ (i : Int) (s : ℚ),
      forLoop (fun j s2 =>
        s2 + ∑ c ∈ Finset.range C.toNat,
          input (in_idx W C h w i j (c : Int)) * weight (wt_idx J C K i j (c : Int) k)) J 0 s
        = s + ∑ j ∈ Finset.range J.toNat, ∑ c ∈ Finset.range C.toNat,
            input (in_idx W C h w i (j : Int) (c : Int))
              * weight (wt_idx J C K i (j : Int) (c : Int) k) :=
    fun i s =>
      forLoop_add (fun j => ∑ c ∈ Finset.range C.toNat,
        input (in_idx W C h w i j (c : Int)) * weight (wt_idx J C K i j (c : Int) k)) J s
  simp only [hj]
  rw [forLoop_add (fun i => ∑ j ∈ Finset.range J.toNat, ∑ c ∈ Finset.range C.toNat,
    input (in_idx W C h w i (j : Int) (c : Int))
      * weight (wt_idx J C K i (j : Int) (c : Int) k)) I 0]
  rw [zero_add]

/-- `conv2d` as one flat fold of stores over the output triples. -/
theorem conv2d_eq_foldl (input weight output : Int → ℚ) (H W I J C K : Int) :
    conv2d input weight output H W I J C K =
      (rangeTriples (H - I + 1).toNat (W - J + 1).toNat K.toNat).foldl
        (fun f t => Function.update f
          (out_idx (W - J + 1) K (t.1 : Int) (t.2.1 : Int) (t.2.2 : Int))
          (convInnerSum input weight W I J C K (t.1 : Int) (t.2.1 : Int) (t.2.2 : Int)))
        output := by
  unfold conv2d
  exact forLoop3_eq_foldl_triples
    (fun h w k f => Function.update f (out_idx (W - J + 1) K h w k)
      (convInnerSum input weight W I J C K h w k)) (H - I + 1) (W - J + 1) K output

/-- Casting the output index computation from `ℕ` to `Int`. -/
theorem out_idx_cast (Wo K h w k : ℕ) :
    out_idx (Wo : Int) (K : Int) (h : Int) (w : Int) (k : Int)
      = (((h * Wo + w) * K + k : ℕ) : Int) := by
  unfold out_idx
  push_cast
  ring

/-- Casting the input index computation from `ℕ` to `Int`. -/
theorem in_idx_cast (W C h w i j c : ℕ) :
    in_idx (W : Int) (C : Int) (h : Int) (w : Int) (i : Int) (j : Int) (c : Int)
      = ((((h + i) * W + (w + j)) * C + c : ℕ) : Int) := by
  unfold in_idx
  push_cast
  ring

/-- Casting the weight index computation from `ℕ` to `Int`. -/
theorem wt_idx_cast (J C K i j c k : ℕ) :
    wt_idx (J : Int) (C : Int) (K : Int) (i : Int) (j : Int) (c : Int) (k : Int)
      = ((((i * J + j) * C + c) * K + k : ℕ) : Int) := by
  unfold wt_idx
  push_cast
  ring

/-- For `I ≤ H`, `J ≤ W`, the `Int` output extents computed by the code are
casts of the `ℕ` extents. -/
theorem extent_cast {I H : ℕ} (hIH : I ≤ H) :
    ((H : Int) - (I : Int) + 1) = ((H - I + 1 : ℕ) : Int) := by omega

/-- Reading `conv2d`'s result at the flat index of a valid output position. -/
theorem conv2d_apply_valid (input weight output : Int → ℚ) {H W I J C K : ℕ}
    (hIH : I ≤ H) (hJW : J ≤ W)
    {h w k : ℕ} (hh : h < H - I + 1) (hw : w < W - J + 1) (hk : k < K) :
    conv2d input weight output (H : Int) (W : Int) (I : Int) (J : Int) (C : Int) (K : Int)
        (((h * (W - J + 1) + w) * K + k : ℕ) : Int)
      = convInnerSum input weight (W : Int) (I : Int) (J : Int) (C : Int) (K : Int)
          (h : Int) (w : Int) (k : Int) := by
  rw [conv2d_eq_foldl, extent_cast hIH, extent_cast hJW, Int.toNat_natCast,
    Int.toNat_natCast, Int.toNat_natCast]
  have hkey := foldl_update_of_mem
    (fun t : ℕ × ℕ × ℕ => out_idx ((W - J + 1 : ℕ) : Int) (K : Int)
      (t.1 : Int) (t.2.1 : Int) (t.2.2 : Int))
    (fun t : ℕ × ℕ × ℕ => convInnerSum input weight (W : Int) (I : Int) (J : Int)
      (C : Int) (K : Int) (t.1 : Int) (t.2.1 : Int) (t.2.2 : Int))
    (h, w, k) (rangeTriples (H - I + 1) (W - J + 1) K) output
    (mem_rangeTriples.mpr ⟨hh, hw, hk⟩) ?_
  · simp only at hkey
    rw [out_idx_cast] at hkey
    exact hkey
  · rintro ⟨a, b, c⟩ hmem he
    obtain ⟨ha, hb, hc⟩ := mem_rangeTriples.mp hmem
    simp only at ha hb hc he
    rw [out_idx_cast, out_idx_cast, Nat.cast_inj] at he
    obtain ⟨e1, e2, e3⟩ := encode_triple_inj hb hc hw hk he
    simp [e1, e2, e3]

/-- `conv2d` leaves every flat index that is not a valid output position
unchanged. -/
theorem conv2d_apply_not_written (input weight output : Int → ℚ) {H W I J C K : ℕ}
    (hIH : I ≤ H) (hJW : J ≤ W) {idx : Int}
    (hidx : ∀ h w k : ℕ, h < H - I + 1 → w < W - J + 1 → k < K →
      (((h * (W - J + 1) + w) * K + k : ℕ) : Int) ≠ idx) :
    conv2d input weight output (H : Int) (W : Int) (I : Int) (J : Int) (C : Int) (K : Int)
        idx = output idx := by
  rw [conv2d_eq_foldl, extent_cast hIH, extent_cast hJW, Int.toNat_natCast,
    Int.toNat_natCast, Int.toNat_natCast]
  refine foldl_update_of_ne _ _ idx _ output ?_
  rintro ⟨a, b, c⟩ hmem
  obtain ⟨ha, hb, hc⟩ := mem_rangeTriples.mp hmem
  rw [out_idx_cast]
  exact hidx a b c ha hb hc

/-- Every `input` read of `conv2d` is in bounds: `0 ≤ in_idx < H*W*C`. -/
theorem in_idx_bounds {H W I J C : ℕ} (hIH : I ≤ H) (hJW : J ≤ W)
    {h w i j c : ℕ} (hh : h < H - I + 1) (hw : w < W - J + 1)
    (hi : i < I) (hj : j < J) (hc : c < C) :
    0 ≤ in_idx (W : Int) (C : Int) (h : Int) (w : Int) (i : Int) (j : Int) (c : Int)
      ∧ in_idx (W : Int) (C : Int) (h : Int) (w : Int) (i : Int) (j : Int) (c : Int)
        < ((H * W * C : ℕ) : Int) := by
  rw [in_idx_cast]
  constructor
  · exact Int.natCast_nonneg _
  · rw [Nat.cast_lt]
    have h1 : h + i < H := by omega
    have h2 : w + j < W := by omega
    exact encode_lt (encode_lt h1 h2) hc

/-- Every `weight` read of `conv2d` is in bounds: `0 ≤ wt_idx < I*J*C*K`. -/
theorem wt_idx_bounds {I J C K : ℕ}
    {i j c k : ℕ} (hi : i < I) (hj : j < J) (hc : c < C) (hk : k < K) :
    0 ≤ wt_idx (J : Int) (C : Int) (K : Int) (i : Int) (j : Int) (c : Int) (k : Int)
      ∧ wt_idx (J : Int) (C : Int) (K : Int) (i : Int) (j : Int) (c : Int) (k : Int)
        < ((I * J * C * K : ℕ) : Int) := by
  rw [wt_idx_cast]
  constructor
  · exact Int.natCast_nonneg _
  · rw [Nat.cast_lt]
    exact encode_lt (encode_lt (encode_lt hi hj) hc) hk

/-- Every `output` write of `conv2d` is in bounds: `0 ≤ out_idx < Ho*Wo*K`. -/
theorem out_idx_bounds {Ho Wo K : ℕ}
    {h w k : ℕ} (hh : h < Ho) (hw : w < Wo) (hk : k < K) :
    0 ≤ out_idx (Wo : Int) (K : Int) (h : Int) (w : Int) (k : Int)
      ∧ out_idx (Wo : Int) (K : Int) (h : Int) (w : Int) (k : Int)
        < ((Ho * Wo * K : ℕ) : Int) := by
  rw [out_idx_cast]
  constructor
  · exact Int.natCast_nonneg _
  · rw [Nat.cast_lt]
    exact encode_lt (encode_lt hh hw) hk

/-! ## CUDA conv2d (src/conv/gpgpusim/conv.cu)

`conv2d_kernel` recomputes `Ho`, `Wo`, derives `(h, w, k)` from block and
thread indices, and under the guard `h < Ho && w < Wo && k < K` runs the
same `i, j, c` accumulation as the sequential code and stores at the same
`out_idx`.  The host `conv2d` copies the buffers to the device, launches
the kernel with block `(16,16,1)` and grid
`((Wo+15)/16, (Ho+15)/16, (K+0)/1)`, and copies the output back. -/

/-- The `i, j, c` accumulation of `conv2d_kernel`; it is textually the same
triple loop as in the sequential `conv2d`. -/
def convKernelSum (input weight : Int → ℚ) (W I J C K h w k : Int) : ℚ :=
  forLoop (fun i s1 =>
    forLoop (fun j s2 =>
      forLoop (fun c s3 =>
        s3 + input (in_idx W C h w i j c) * weight (wt_idx J C K i j c k)) C 0 s2)
      J 0 s1) I 0 0

theorem convKernelSum_eq_convInnerSum : @convKernelSum = @convInnerSum := rfl

/-- One thread of `conv2d_kernel` at output position `(h, w, k)`: under the
bounds guard, stores its accumulated sum at `out_idx`. -/
def convKernelThread (input weight : Int → ℚ) (H W I J C K h w k : Int)
    (output : Int → ℚ) : Int → ℚ :=
  if h < H - I + 1 ∧ w < W - J + 1 ∧ k < K then
    Function.update output (out_idx (W - J + 1) K h w k)
      (convKernelSum input weight W I J C K h w k)
  else output

/-- The kernel launch `conv2d_kernel<<<grid, block>>>` with block
`(16,16,1)` and grid `(gx, gy, gz)`.  Since `blockDim.z = 1`, every thread
has `threadIdx.z = 0` and `k = blockIdx.z`.  CUDA fixes no execution order
between the threads; all stores target pairwise distinct addresses (each
output position belongs to exactly one thread), so the launch is modelled
by enumerating the grid in a canonical order. -/
def convLaunch (input weight output : Int → ℚ) (H W I J C K gx gy gz : Int) : Int → ℚ :=
  forLoop (fun bz f1 =>
    forLoop (fun bY f2 =>
      forLoop (fun tY f3 =>
        forLoop (fun bX f4 =>
          forLoop (fun tX f5 =>
            convKernelThread input weight H W I J C K
              (bY * 16 + tY) (bX * 16 + tX) bz f5) 16 0 f4) gx 0 f3) 16 0 f2) gy 0 f1)
    gz 0 output

/-- `cudaMemcpy(dst, src, size)` on flat buffers: the first `size` entries
come from `src`, the rest of `dst` is untouched. -/
def memcpyBuf (dst src : Int → ℚ) (size : Int) : Int → ℚ :=
  fun i => if 0 ≤ i ∧ i < size then src i else dst i

/-- Host `conv2d` of the GPGPU-Sim program: device buffers are freshly
allocated (modelled zero-initialised), `input` and `weight` are copied to
the device, the kernel grid is launched, and `Ho*Wo*K` output elements are
copied back into the host `output` buffer. -/
def conv2dCudaHost (input weight output : Int → ℚ) (H W I J C K : Int) : Int → ℚ :=
  let Ho := H - I + 1
  let Wo := W - J + 1
  let d_input := memcpyBuf (fun _ => 0) input (H * W * C)
  let d_weight := memcpyBuf (fun _ => 0) weight (I * J * C * K)
  let d_output : Int → ℚ := fun _ => 0
  let gx := (Wo + 16 - 1) / 16
  let gy := (Ho + 16 - 1) / 16
  let gz := (K + 1 - 1) / 1
  let d_result := convLaunch d_input d_weight d_output H W I J C K gx gy gz
  memcpyBuf output d_result (Ho * Wo * K)

/-- The conv kernel launch as one flat fold over `(blockIdx.z, h, w)`. -/
theorem convLaunch_eq_foldl (input weight output : Int → ℚ) (H W I J C K gx gy gz : Int)
    (hgx : 0 ≤ gx) (hgy : 0 ≤ gy) :
    convLaunch input weight output H W I J C K gx gy gz
      = (rangeTriples gz.toNat (16 * gy).toNat (16 * gx).toNat).foldl
          (fun f t => convKernelThread input weight H W I J C K
            (t.2.1 : Int) (t.2.2 : Int) (t.1 : Int) f) output := by
  unfold convLaunch
  have hx : ∀ (hh kk : Int) (s : Int → ℚ),
      forLoop (fun bX f4 => forLoop (fun tX f5 =>
        convKernelThread input weight H W I J C K hh (bX * 16 + tX) kk f5) 16 0 f4) gx 0 s
        = forLoop (fun ww f4 =>
            convKernelThread input weight H W I J C K hh ww kk f4) (16 * gx) 0 s :=
    fun hh kk s =>
      forLoop_blocks (fun ww f => convKernelThread input weight H W I J C K hh ww kk f) gx hgx s
  simp only [hx]
  have hy : ∀ (kk : Int) (s : Int → ℚ),
      forLoop (fun bY f2 => forLoop (fun tY f3 =>
        forLoop (fun ww f4 =>
          convKernelThread input weight H W I J C K (bY * 16 + tY) ww kk f4)
          (16 * gx) 0 f3) 16 0 f2) gy 0 s
        = forLoop (fun hh f2 => forLoop (fun ww f4 =>
            convKernelThread input weight H W I J C K hh ww kk f4) (16 * gx) 0 f2)
            (16 * gy) 0 s :=
    fun kk s =>
      forLoop_blocks (fun hh f => forLoop (fun ww f4 =>
        convKernelThread input weight H W I J C K hh ww kk f4) (16 * gx) 0 f) gy hgy s
  simp only [hy]
  exact forLoop3_eq_foldl_triples
    (fun kk hh ww f => convKernelThread input weight H W I J C K hh ww kk f)
    gz (16 * gy) (16 * gx) output

/-- Guarded version of `foldl_update_of_ne`: stores guarded by a predicate
at addresses different from `x` leave `f x` unchanged. -/
theorem foldl_guard_update_of_ne {α : Type} (p : α → Prop) [DecidablePred p]
    (enc : α → Int) (val : α → ℚ) (x : Int) :
    ∀ (l : List α) (f : Int → ℚ), (∀ a ∈ l, p a → enc a ≠ x) →
      (l.foldl (fun g a => if p a then Function.update g (enc a) (val a) else g) f) x
        = f x := by
  intro l
  induction l with
  | nil => intro f _; rfl
  | cons a t ih =>
    intro f h
    simp only [List.foldl_cons]
    rw [ih _ (fun b hb => h b (List.mem_cons_of_mem a hb))]
    by_cases hpa : p a
    · rw [if_pos hpa]
      exact Function.update_noteq (Ne.symm (h a (List.mem_cons_self a t) hpa)) _ f
    · rw [if_neg hpa]

/-- Guarded version of `foldl_update_of_mem`. -/
theorem foldl_guard_update_of_mem {α : Type} (p : α → Prop) [DecidablePred p]
    (enc : α → Int) (val : α → ℚ) (a₀ : α) :
    ∀ (l : List α) (f : Int → ℚ), a₀ ∈ l → p a₀ →
      (∀ a ∈ l, p a → enc a = enc a₀ → a = a₀) →
      (l.foldl (fun g a => if p a then Function.update g (enc a) (val a) else g) f) (enc a₀)
        = val a₀ := by
  intro l
  induction l with
  | nil => intro f h _ _; cases h
  | cons a t ih =>
    intro f hmem hp hinj
    simp only [List.foldl_cons]
    by_cases hat : a₀ ∈ t
    · exact ih _ hat hp (fun b hb hpb he => hinj b (List.mem_cons_of_mem a hb) hpb he)
    · have ha : a = a₀ := by
        rcases List.mem_cons.mp hmem with h | h
        · exact h.symm
        · exact absurd h hat
      subst ha
      rw [foldl_guard_update_of_ne p enc val (enc a) t _ ?_]
      · rw [if_pos hp]
        exact Function.update_same (enc a) (val a) f
      · intro b hb hpb hbe
        exact absurd (hinj b (List.mem_cons_of_mem a hb) hpb hbe ▸ hb) hat

/-- Reading the conv kernel launch result at the flat index of a valid
output position: exactly one thread in the grid computes it. -/
theorem convLaunch_apply_valid (input weight output : Int → ℚ) {H W I J C K : ℕ}
    (hIH : I ≤ H) (hJW : J ≤ W) {gx gy gz : Int}
    (hgx : 0 ≤ gx) (hgy : 0 ≤ gy)
    (hcovx : ((W - J + 1 : ℕ) : Int) ≤ 16 * gx)
    (hcovy : ((H - I + 1 : ℕ) : Int) ≤ 16 * gy)
    (hcovz : (K : Int) ≤ gz)
    {h w k : ℕ} (hh : h < H - I + 1) (hw : w < W - J + 1) (hk : k < K) :
    convLaunch input weight output (H : Int) (W : Int) (I : Int) (J : Int) (C : Int) (K : Int)
        gx gy gz (((h * (W - J + 1) + w) * K + k : ℕ) : Int)
      = convKernelSum input weight (W : Int) (I : Int) (J : Int) (C : Int) (K : Int)
          (h : Int) (w : Int) (k : Int) := by
  rw [convLaunch_eq_foldl input weight output _ _ _ _ _ _ gx gy gz hgx hgy]
  simp only [convKernelThread, extent_cast hIH, extent_cast hJW]
  have hkey := foldl_guard_update_of_mem
    (fun t : ℕ × ℕ × ℕ => ((t.2.1 : ℕ) : Int) < ((H - I + 1 : ℕ) : Int)
      ∧ ((t.2.2 : ℕ) : Int) < ((W - J + 1 : ℕ) : Int) ∧ ((t.1 : ℕ) : Int) < (K : Int))
    (fun t : ℕ × ℕ × ℕ => out_idx ((W - J + 1 : ℕ) : Int) (K : Int)
      (t.2.1 : Int) (t.2.2 : Int) (t.1 : Int))
    (fun t : ℕ × ℕ × ℕ => convKernelSum input weight (W : Int) (I : Int) (J : Int)
      (C : Int) (K : Int) (t.2.1 : Int) (t.2.2 : Int) (t.1 : Int))
    (k, h, w) (rangeTriples gz.toNat (16 * gy).toNat (16 * gx).toNat) output
    (mem_rangeTriples.mpr (by constructor <;> [skip; constructor] <;> simp <;> omega))
    (by simp only; push_cast; omega) ?_
  · simp only at hkey
    rw [out_idx_cast] at hkey
    exact hkey
  · rintro ⟨a, b, c⟩ hmem ⟨hp1, hp2, hp3⟩ he
    simp only at hp1 hp2 hp3 he
    rw [Nat.cast_lt] at hp1 hp2 hp3
    rw [out_idx_cast, out_idx_cast, Nat.cast_inj] at he
    obtain ⟨e1, e2, e3⟩ := encode_triple_inj hp2 hp3 hw hk he
    simp [e1, e2, e3]

/-- The conv kernel launch leaves indices of no valid output position
unchanged: out-of-range threads store nothing. -/
theorem convLaunch_apply_not_written (input weight output : Int → ℚ) {H W I J C K : ℕ}
    (hIH : I ≤ H) (hJW : J ≤ W) {gx gy gz : Int}
    (hgx : 0 ≤ gx) (hgy : 0 ≤ gy) {idx : Int}
    (hidx : ∀ h w k : ℕ, h < H - I + 1 → w < W - J + 1 → k < K →
      (((h * (W - J + 1) + w) * K + k : ℕ) : Int) ≠ idx) :
    convLaunch input weight output (H : Int) (W : Int) (I : Int) (J : Int) (C : Int) (K : Int)
        gx gy gz idx = output idx := by
  rw [convLaunch_eq_foldl input weight output _ _ _ _ _ _ gx gy gz hgx hgy]
  simp only [convKernelThread, extent_cast hIH, extent_cast hJW]
  refine foldl_guard_update_of_ne _ _ _ idx _ output ?_
  rintro ⟨a, b, c⟩ hmem ⟨hp1, hp2, hp3⟩
  simp only at hp1 hp2 hp3
  rw [Nat.cast_lt] at hp1 hp2 hp3
  simp only
  rw [out_idx_cast]
  exact hidx b c a hp1 hp2 hp3

/-- Under the bounds hypotheses, the kernel reads only copied device
entries, so the device-resident accumulation equals the host one. -/
theorem convInnerSum_memcpy (input weight : Int → ℚ) {H W I J C K : ℕ}
    (hIH : I ≤ H) (hJW : J ≤ W)
    {h w k : ℕ} (hh : h < H - I + 1) (hw : w < W - J + 1) (hk : k < K) :
    convInnerSum (memcpyBuf (fun _ => 0) input ((H : Int) * (W : Int) * (C : Int)))
        (memcpyBuf (fun _ => 0) weight ((I : Int) * (J : Int) * (C : Int) * (K : Int)))
        (W : Int) (I : Int) (J : Int) (C : Int) (K : Int) (h : Int) (w : Int) (k : Int)
      = convInnerSum input weight (W : Int) (I : Int) (J : Int) (C : Int) (K : Int)
          (h : Int) (w : Int) (k : Int) := by
  rw [convInnerSum_eq, convInnerSum_eq]
  simp only [Int.toNat_natCast]
  refine Finset.sum_congr rfl (fun i hi => Finset.sum_congr rfl (fun j hj =>
    Finset.sum_congr rfl (fun c hc => ?_)))
  rw [Finset.mem_range] at hi hj hc
  obtain ⟨hin1, hin2⟩ := in_idx_bounds hIH hJW hh hw hi hj hc
  obtain ⟨hwt1, hwt2⟩ := wt_idx_bounds hi hj hc hk
  push_cast at hin2 hwt2
  congr 1
  · simp only [memcpyBuf]
    rw [if_pos ⟨hin1, hin2⟩]
  · simp only [memcpyBuf]
    rw [if_pos ⟨hwt1, hwt2⟩]

/-- C1: for every `H ≥ I ≥ 1`, `W ≥ J ≥ 1`, `C ≥ 1`, `K ≥ 1`, after the
sequential `conv2d` runs, every output element
`output[(h*Wo+w)*K + k]` (with `Ho = H-I+1`, `Wo = W-J+1`, `h < Ho`,
`w < Wo`, `k < K`) equals the closed-form sliding-window weighted sum
`∑ i < I, ∑ j < J, ∑ c < C, input[((h+i)*W+(w+j))*C+c] * weight[((i*J+j)*C+c)*K+k]`. -/
theorem conv2d_closed_form (input weight output : Int → ℚ) (H W I J C K : ℕ)
    (hI1 : 1 ≤ I) (hIH : I ≤ H) (hJ1 : 1 ≤ J) (hJW : J ≤ W) (hC1 : 1 ≤ C) (hK1 : 1 ≤ K)
    (h w k : ℕ) (hh : h < H - I + 1) (hw : w < W - J + 1) (hk : k < K) :
    conv2d input weight output (H : Int) (W : Int) (I : Int) (J : Int) (C : Int) (K : Int)
        (((h * (W - J + 1) + w) * K + k : ℕ) : Int)
      = ∑ i ∈ Finset.range I, ∑ j ∈ Finset.range J, ∑ c ∈ Finset.range C,
          input ((((h + i) * W + (w + j)) * C + c : ℕ) : Int)
            * weight ((((i * J + j) * C + c) * K + k : ℕ) : Int) := by
  rw [conv2d_apply_valid input weight output hIH hJW hh hw hk, convInnerSum_eq]
  simp only [Int.toNat_natCast]
  refine Finset.sum_congr rfl (fun i hi => Finset.sum_congr rfl (fun j hj =>
    Finset.sum_congr rfl (fun c hc => ?_)))
  rw [in_idx_cast, wt_idx_cast]

/-- Witness for `conv2d_closed_form` at `H = W = I = J = C = K = 1`,
`h = w = k = 0`, constant buffers. -/
theorem conv2d_closed_form_witness :
    conv2d (fun _ => 2) (fun _ => 3) (fun _ => 0)
        ((1 : ℕ) : Int) ((1 : ℕ) : Int) ((1 : ℕ) : Int) ((1 : ℕ) : Int)
        ((1 : ℕ) : Int) ((1 : ℕ) : Int)
        (((0 * (1 - 1 + 1) + 0) * 1 + 0 : ℕ) : Int)
      = ∑ i ∈ Finset.range 1, ∑ j ∈ Finset.range 1, ∑ c ∈ Finset.range 1,
          (fun _ => (2 : ℚ)) ((((0 + i) * 1 + (0 + j)) * 1 + c : ℕ) : Int)
            * (fun _ => (3 : ℚ)) ((((i * 1 + j) * 1 + c) * 1 + 0 : ℕ) : Int) :=
  conv2d_closed_form (fun _ => 2) (fun _ => 3) (fun _ => 0) 1 1 1 1 1 1
    (by decide) (by decide) (by decide) (by decide) (by decide) (by decide)
    0 0 0 (by decide) (by decide) (by decide)

/-- C9: for every valid parameter choice, every array access of the
sequential `conv2d` is in bounds (reads of `input` lie in `[0, H*W*C)`,
reads of `weight` in `[0, I*J*C*K)`, writes of `output` in `[0, Ho*Wo*K)`),
and every output index below `Ho*Wo*K` is written exactly once: it is the
`out_idx` of exactly one loop-iteration triple `(h, w, k)`. -/
theorem conv2d_accesses_in_bounds (H W I J C K h w k i j c idx : ℕ)
    (hI1 : 1 ≤ I) (hIH : I ≤ H) (hJ1 : 1 ≤ J) (hJW : J ≤ W) (hC1 : 1 ≤ C) (hK1 : 1 ≤ K)
    (hh : h < H - I + 1) (hw : w < W - J + 1) (hk : k < K)
    (hi : i < I) (hj : j < J) (hc : c < C)
    (hidx : idx < (H - I + 1) * (W - J + 1) * K) :
    (0 ≤ in_idx (W : Int) (C : Int) (h : Int) (w : Int) (i : Int) (j : Int) (c : Int)
      ∧ in_idx (W : Int) (C : Int) (h : Int) (w : Int) (i : Int) (j : Int) (c : Int)
          < ((H * W * C : ℕ) : Int))
    ∧ (0 ≤ wt_idx (J : Int) (C : Int) (K : Int) (i : Int) (j : Int) (c : Int) (k : Int)
      ∧ wt_idx (J : Int) (C : Int) (K : Int) (i : Int) (j : Int) (c : Int) (k : Int)
          < ((I * J * C * K : ℕ) : Int))
    ∧ (0 ≤ out_idx ((W - J + 1 : ℕ) : Int) (K : Int) (h : Int) (w : Int) (k : Int)
      ∧ out_idx ((W - J + 1 : ℕ) : Int) (K : Int) (h : Int) (w : Int) (k : Int)
          < (((H - I + 1) * (W - J + 1) * K : ℕ) : Int))
    ∧ (∃! t : ℕ × ℕ × ℕ, (t.1 < H - I + 1 ∧ t.2.1 < W - J + 1 ∧ t.2.2 < K)
        ∧ out_idx ((W - J + 1 : ℕ) : Int) (K : Int)
            (t.1 : Int) (t.2.1 : Int) (t.2.2 : Int) = (idx : Int)) := by
  refine ⟨in_idx_bounds hIH hJW hh hw hi hj hc, wt_idx_bounds hi hj hc hk,
    out_idx_bounds hh hw hk, ?_⟩
  obtain ⟨a, b, c', h1, h2, h3, henc⟩ := exists_decode (by omega) (by omega) hidx
  refine ⟨(a, b, c'), ⟨⟨h1, h2, h3⟩, ?_⟩, ?_⟩
  · simp only
    rw [out_idx_cast, henc]
  · rintro ⟨x, y, z⟩ ⟨⟨hx, hy, hz⟩, hxe⟩
    simp only at hx hy hz hxe
    rw [out_idx_cast, Nat.cast_inj] at hxe
    obtain ⟨e1, e2, e3⟩ := encode_triple_inj hy hz h2 h3 (by rw [hxe, henc])
    simp [e1, e2, e3]

/-- Witness for `conv2d_accesses_in_bounds` at the all-ones parameters. -/
theorem conv2d_accesses_in_bounds_witness :
    (0 ≤ in_idx ((1 : ℕ) : Int) ((1 : ℕ) : Int) ((0 : ℕ) : Int) ((0 : ℕ) : Int)
        ((0 : ℕ) : Int) ((0 : ℕ) : Int) ((0 : ℕ) : Int)
      ∧ in_idx ((1 : ℕ) : Int) ((1 : ℕ) : Int) ((0 : ℕ) : Int) ((0 : ℕ) : Int)
          ((0 : ℕ) : Int) ((0 : ℕ) : Int) ((0 : ℕ) : Int) < ((1 * 1 * 1 : ℕ) : Int))
    ∧ (0 ≤ wt_idx ((1 : ℕ) : Int) ((1 : ℕ) : Int) ((1 : ℕ) : Int) ((0 : ℕ) : Int)
        ((0 : ℕ) : Int) ((0 : ℕ) : Int) ((0 : ℕ) : Int)
      ∧ wt_idx ((1 : ℕ) : Int) ((1 : ℕ) : Int) ((1 : ℕ) : Int) ((0 : ℕ) : Int)
          ((0 : ℕ) : Int) ((0 : ℕ) : Int) ((0 : ℕ) : Int) < ((1 * 1 * 1 * 1 : ℕ) : Int))
    ∧ (0 ≤ out_idx ((1 - 1 + 1 : ℕ) : Int) ((1 : ℕ) : Int) ((0 : ℕ) : Int) ((0 : ℕ) : Int)
        ((0 : ℕ) : Int)
      ∧ out_idx ((1 - 1 + 1 : ℕ) : Int) ((1 : ℕ) : Int) ((0 : ℕ) : Int) ((0 : ℕ) : Int)
          ((0 : ℕ) : Int) < (((1 - 1 + 1) * (1 - 1 + 1) * 1 : ℕ) : Int))
    ∧ (∃! t : ℕ × ℕ × ℕ, (t.1 < 1 - 1 + 1 ∧ t.2.1 < 1 - 1 + 1 ∧ t.2.2 < 1)
        ∧ out_idx ((1 - 1 + 1 : ℕ) : Int) ((1 : ℕ) : Int)
            (t.1 : Int) (t.2.1 : Int) (t.2.2 : Int) = ((0 : ℕ) : Int)) :=
  conv2d_accesses_in_bounds 1 1 1 1 1 1 0 0 0 0 0 0 0
    (by decide) (by decide) (by decide) (by decide) (by decide) (by decide)
    (by decide) (by decide) (by decide) (by decide) (by decide) (by decide) (by decide)

/-- C10: the six-nested loop structure of `conv2d` terminates for every
`Int` choice of the parameters: the innermost multiply-accumulate body
executes exactly `Ho⁺ * Wo⁺ * K⁺ * I⁺ * J⁺ * C⁺` times (`x⁺ = max x 0`),
a finite number — negative or zero bounds give empty loops.  (The embedded
`conv2d` itself is a total function of the same loop structure.) -/
theorem conv2d_loop_nest_total (H W I J C K : Int) :
    conv2dCount H W I J C K
      = (H - I + 1).toNat
          * ((W - J + 1).toNat * (K.toNat * (I.toNat * (J.toNat * C.toNat)))) := by
  unfold conv2dCount
  have h1 : ∀ (m : ℕ), forLoop (fun _ m3 => m3 + 1) C 0 m = m + C.toNat := by
    intro m
    simpa using forLoop_add (fun _ => (1 : ℕ)) C m
  simp only [h1]
  have h2 : ∀ (m : ℕ), forLoop (fun _ m2 => m2 + C.toNat) J 0 m
      = m + J.toNat * C.toNat := by
    intro m
    simpa [Finset.sum_const, Finset.card_range, smul_eq_mul] using
      forLoop_add (fun _ => C.toNat) J m
  simp only [h2]
  have h3 : ∀ (m : ℕ), forLoop (fun _ m1 => m1 + J.toNat * C.toNat) I 0 m
      = m + I.toNat * (J.toNat * C.toNat) := by
    intro m
    simpa [Finset.sum_const, Finset.card_range, smul_eq_mul] using
      forLoop_add (fun _ => J.toNat * C.toNat) I m
  simp only [h3]
  have h4 : ∀ (m : ℕ), forLoop (fun _ n3 => n3 + I.toNat * (J.toNat * C.toNat)) K 0 m
      = m + K.toNat * (I.toNat * (J.toNat * C.toNat)) := by
    intro m
    simpa [Finset.sum_const, Finset.card_range, smul_eq_mul] using
      forLoop_add (fun _ => I.toNat * (J.toNat * C.toNat)) K m
  simp only [h4]
  have h5 : ∀ (m : ℕ),
      forLoop (fun _ n2 => n2 + K.toNat * (I.toNat * (J.toNat * C.toNat))) (W - J + 1) 0 m
        = m + (W - J + 1).toNat * (K.toNat * (I.toNat * (J.toNat * C.toNat))) := by
    intro m
    simpa [Finset.sum_const, Finset.card_range, smul_eq_mul] using
      forLoop_add (fun _ => K.toNat * (I.toNat * (J.toNat * C.toNat))) (W - J + 1) m
  simp only [h5]
  have h6 := forLoop_add
    (fun _ => (W - J + 1).toNat * (K.toNat * (I.toNat * (J.toNat * C.toNat))))
    (H - I + 1) 0
  simpa [Finset.sum_const, Finset.card_range, smul_eq_mul] using h6

/-- C5: for every `H ≥ I ≥ 1`, `W ≥ J ≥ 1`, `C ≥ 1`, `K ≥ 1` and the same
`input` and `weight` buffers, the CUDA host `conv2d` (kernel launched with
block `(16,16,1)` and grid `(⌈Wo/16⌉, ⌈Ho/16⌉, K)`, every output position
computed by exactly one thread, accumulating over `(i, j, c)` in the same
order) produces an output buffer equal, element for element, to the output
of the sequential six-nested-loop `conv2d`. -/
theorem conv2dCuda_refines_sequential (input weight output : Int → ℚ) (H W I J C K : ℕ)
    (hI1 : 1 ≤ I) (hIH : I ≤ H) (hJ1 : 1 ≤ J) (hJW : J ≤ W) (hC1 : 1 ≤ C) (hK1 : 1 ≤ K) :
    conv2dCudaHost input weight output
        (H : Int) (W : Int) (I : Int) (J : Int) (C : Int) (K : Int)
      = conv2d input weight output
          (H : Int) (W : Int) (I : Int) (J : Int) (C : Int) (K : Int) := by
  funext idx
  have hL : conv2dCudaHost input weight output
      (H : Int) (W : Int) (I : Int) (J : Int) (C : Int) (K : Int) idx
      = (if 0 ≤ idx ∧ idx < ((H : Int) - I + 1) * ((W : Int) - J + 1) * K
         then convLaunch (memcpyBuf (fun _ => 0) input ((H : Int) * W * C))
                (memcpyBuf (fun _ => 0) weight ((I : Int) * J * C * K))
                (fun _ => 0) (H : Int) (W : Int) (I : Int) (J : Int) (C : Int) (K : Int)
                ((((W : Int) - J + 1) + 16 - 1) / 16)
                ((((H : Int) - I + 1) + 16 - 1) / 16)
                (((K : Int) + 1 - 1) / 1) idx
         else output idx) := rfl
  rw [hL]
  by_cases hin : 0 ≤ idx ∧ idx < ((H : Int) - I + 1) * ((W : Int) - J + 1) * K
  · rw [if_pos hin]
    obtain ⟨hge, hlt⟩ := hin
    rw [extent_cast hIH, extent_cast hJW, ← Nat.cast_mul, ← Nat.cast_mul] at hlt
    have hltn : idx.toNat < (H - I + 1) * (W - J + 1) * K := by omega
    obtain ⟨hh, ww, kk, h1, h2, h3, henc⟩ := exists_decode (by omega) (by omega) hltn
    have hidx2 : (((hh * (W - J + 1) + ww) * K + kk : ℕ) : Int) = idx := by
      rw [henc]
      exact Int.toNat_of_nonneg hge
    rw [← hidx2]
    rw [conv2d_apply_valid input weight output hIH hJW h1 h2 h3]
    rw [convLaunch_apply_valid
      (memcpyBuf (fun _ => 0) input ((H : Int) * W * C))
      (memcpyBuf (fun _ => 0) weight ((I : Int) * J * C * K))
      (fun _ => 0) hIH hJW (by omega) (by omega) (by omega) (by omega) (by omega)
      h1 h2 h3]
    rw [convKernelSum_eq_convInnerSum]
    exact convInnerSum_memcpy input weight hIH hJW h1 h2 h3
  · rw [if_neg hin]
    refine (conv2d_apply_not_written input weight output hIH hJW ?_).symm
    intro h w k hh hw hk heq
    apply hin
    have hb : ((h * (W - J + 1) + w) * K + k : ℕ) < (H - I + 1) * (W - J + 1) * K :=
      encode_lt (encode_lt hh hw) hk
    rw [extent_cast hIH, extent_cast hJW, ← Nat.cast_mul, ← Nat.cast_mul, ← heq]
    constructor
    · exact Int.natCast_nonneg _
    · exact Nat.cast_lt.mpr hb

/-- Witness for `conv2dCuda_refines_sequential` at the all-ones parameters. -/
theorem conv2dCuda_refines_sequential_witness :
    conv2dCudaHost (fun _ => 1) (fun _ => 1) (fun _ => 0)
        ((1 : ℕ) : Int) ((1 : ℕ) : Int) ((1 : ℕ) : Int) ((1 : ℕ) : Int)
        ((1 : ℕ) : Int) ((1 : ℕ) : Int)
      = conv2d (fun _ => 1) (fun _ => 1) (fun _ => 0)
          ((1 : ℕ) : Int) ((1 : ℕ) : Int) ((1 : ℕ) : Int) ((1 : ℕ) : Int)
          ((1 : ℕ) : Int) ((1 : ℕ) : Int) :=
  conv2dCuda_refines_sequential (fun _ => 1) (fun _ => 1) (fun _ => 0) 1 1 1 1 1 1
    (by decide) (by decide) (by decide) (by decide) (by decide) (by decide)

/-! ## Tiled GEMM (src/gemm/gemm.cu)

`gemm_kernel` computes `C = A * B` (`M×K` times `K×N`) with `16×16`
shared-memory tiles `sA`, `sB`.  Thread `(threadIdx.x, threadIdx.y)` of
block `(blockIdx.x, blockIdx.y)` has `row = blockIdx.y*16 + threadIdx.y`,
`col = blockIdx.x*16 + threadIdx.x`; in tile iteration `t` the block loads
`sA[ty][tx] = A[row*K + t*16+tx]` and `sB[ty][tx] = B[(t*16+ty)*N + col]`
(0 when out of range), synchronizes, accumulates the 16 products, and
synchronizes again; after the tile loop it stores `C[row*N+col] = sum`
under the guard `row < M && col < N`. -/

/-- The shared-tile entry `sA[ty][k]` read during the compute phase of tile
iteration `t` by a thread of row `row`: it was loaded by the thread with
`threadIdx.x = k` of the same block row, so its value is
`A[row*K + t*16+k]` when `row < M && t*16+k < K`, and `0.0f` otherwise. -/
def sAval (A : Int → ℚ) (M K row : Int) (t k : Int) : ℚ :=
  if row < M ∧ t * 16 + k < K then A (row * K + (t * 16 + k)) else 0

/-- The shared-tile entry `sB[k][tx]` read during the compute phase of tile
iteration `t` by a thread of column `col`: loaded by the thread with
`threadIdx.y = k` of the same block column, value `B[(t*16+k)*N + col]`
when `t*16+k < K && col < N`, else `0.0f`. -/
def sBval (B : Int → ℚ) (N K col : Int) (t k : Int) : ℚ :=
  if t * 16 + k < K ∧ col < N then B ((t * 16 + k) * N + col) else 0

/-- The accumulator of one `gemm_kernel` thread: the tile loop over
`t < (K+16-1)/16` of the unrolled 16-step multiply-accumulate. -/
def gemmThreadSum (A B : Int → ℚ) (M N K row col : Int) : ℚ :=
  forLoop (fun t sum =>
    forLoop (fun k s => s + sAval A M K row t k * sBval B N K col t k) 16 0 sum)
    ((K + 16 - 1) / 16) 0 0

/-- One `gemm_kernel` thread: after the tile loop, the guarded store
`if (row < M && col < N) C[row*N+col] = sum`. -/
def gemmThread (A B Cbuf : Int → ℚ) (M N K row col : Int) : Int → ℚ :=
  if row < M ∧ col < N then
    Function.update Cbuf (row * N + col) (gemmThreadSum A B M N K row col)
  else Cbuf

/-- Reference definition following the claim's words: the naive (untiled)
matrix-product entry `∑ k < K, A[row*K+k] * B[k*N+col]`. -/
def gemmNaiveEntry (A B : Int → ℚ) (N K row col : Int) : ℚ :=
  ∑ kk ∈ Finset.range K.toNat, A (row * K + (kk : Int)) * B ((kk : Int) * N + col)

/-- Core equivalence: in exact arithmetic the tiled accumulation of a
thread with `row < M`, `col < N` equals the naive matrix-product entry;
the zero padding of partial tiles contributes nothing. -/
theorem gemmThreadSum_eq_naive (A B : Int → ℚ) (M N K row col : Int)
    (hrow : row < M) (hcol : col < N) (hK1 : 1 ≤ K) :
    gemmThreadSum A B M N K row col = gemmNaiveEntry A B N K row col := by
  unfold gemmThreadSum gemmNaiveEntry
  have hinner : ∀ (t : Int) (s : ℚ),
      forLoop (fun k s => s + sAval A M K row t k * sBval B N K col t k) 16 0 s
        = s + ∑ k ∈ Finset.range 16,
            sAval A M K row t (k : Int) * sBval B N K col t (k : Int) := by
    intro t s
    simpa using forLoop_add (fun k => sAval A M K row t k * sBval B N K col t k) 16 s
  simp only [hinner]
  rw [forLoop_add (fun t => ∑ k ∈ Finset.range 16,
    sAval A M K row t (k : Int) * sBval B N K col t (k : Int)) ((K + 16 - 1) / 16) 0]
  rw [zero_add]
  have hprod : ∀ (t k : ℕ),
      sAval A M K row (t : Int) (k : Int) * sBval B N K col (t : Int) (k : Int)
        = (fun kk : ℕ => if ((kk : ℕ) : Int) < K
            then A (row * K + ((kk : ℕ) : Int)) * B (((kk : ℕ) : Int) * N + col)
            else 0) (16 * t + k) := by
    intro t k
    simp only
    have harg : (t : Int) * 16 + (k : Int) = ((16 * t + k : ℕ) : Int) := by
      push_cast
      ring
    unfold sAval sBval
    rw [harg]
    by_cases hk : ((16 * t + k : ℕ) : Int) < K
    · rw [if_pos ⟨hrow, hk⟩, if_pos ⟨hk, hcol⟩, if_pos hk]
    · rw [if_neg (fun hcon => hk hcon.2), if_neg (fun hcon => hk hcon.1), if_neg hk,
        zero_mul]
  simp only [hprod]
  rw [sum_blocks (fun kk : ℕ => if ((kk : ℕ) : Int) < K
    then A (row * K + ((kk : ℕ) : Int)) * B (((kk : ℕ) : Int) * N + col)
    else 0) ((K + 16 - 1) / 16).toNat]
  have hsub : K.toNat ≤ 16 * ((K + 16 - 1) / 16).toNat := by omega
  have hzero : ∀ x ∈ Finset.range (16 * ((K + 16 - 1) / 16).toNat),
      x ∉ Finset.range K.toNat →
      (if ((x : ℕ) : Int) < K
        then A (row * K + ((x : ℕ) : Int)) * B (((x : ℕ) : Int) * N + col)
        else 0) = 0 := by
    intro x hx hnx
    rw [Finset.mem_range, not_lt] at hnx
    rw [if_neg (by omega)]
  rw [← Finset.sum_subset (Finset.range_subset.mpr hsub) hzero]
  exact Finset.sum_congr rfl (fun kk hkk => by
    rw [Finset.mem_range] at hkk
    rw [if_pos (by omega)])

/-- C3: for every `M, N, K ≥ 1` and every thread `(row, col)` of the launch
grid with `row < M` and `col < N`, the tiled shared-memory `gemm_kernel`
stores into `C[row*N+col]` exactly the naive (untiled) reference product
`∑ k < K, A[row*K+k] * B[k*N+col]` — out-of-range tile entries are padded
with `0.0f` and contribute nothing — including when `M`, `N` or `K` is not
a multiple of the tile size 16. -/
theorem gemm_tiled_refines_naive (A B Cbuf : Int → ℚ) (M N K row col : Int)
    (hM1 : 1 ≤ M) (hN1 : 1 ≤ N) (hK1 : 1 ≤ K)
    (hrow0 : 0 ≤ row) (hcol0 : 0 ≤ col) (hrow : row < M) (hcol : col < N) :
    gemmThread A B Cbuf M N K row col
      = Function.update Cbuf (row * N + col) (gemmNaiveEntry A B N K row col) := by
  unfold gemmThread
  rw [if_pos ⟨hrow, hcol⟩, gemmThreadSum_eq_naive A B M N K row col hrow hcol hK1]

/-- Witness for `gemm_tiled_refines_naive` at `M = N = K = 1`, thread `(0, 0)`. -/
theorem gemm_tiled_refines_naive_witness :
    gemmThread (fun _ => 1) (fun _ => 1) (fun _ => 0) 1 1 1 0 0
      = Function.update (fun _ => (0 : ℚ)) (0 * 1 + 0)
          (gemmNaiveEntry (fun _ => 1) (fun _ => 1) 1 1 0 0) :=
  gemm_tiled_refines_naive (fun _ => 1) (fun _ => 1) (fun _ => 0) 1 1 1 0 0
    (by decide) (by decide) (by decide) (by decide) (by decide) (by decide) (by decide)

/-- The kernel launch `gemm_kernel<<<grid, block>>>` of `gemm_kernel_test`:
block `(16, 16)`, grid `((N+15)/16, (M+15)/16)`.  As for the convolution
launch, thread order is irrelevant (stores are pairwise distinct), so the
grid is enumerated canonically. -/
def gemmLaunch (A B Cbuf : Int → ℚ) (M N K : Int) : Int → ℚ :=
  let gx := (N + 16 - 1) / 16
  let gy := (M + 16 - 1) / 16
  forLoop (fun bY f1 =>
    forLoop (fun tY f2 =>
      forLoop (fun bX f3 =>
        forLoop (fun tX f4 =>
          gemmThread A B f4 M N K (bY * 16 + tY) (bX * 16 + tX)) 16 0 f3) gx 0 f2)
      16 0 f1) gy 0 Cbuf

/-- The GEMM launch as one flat fold over `(row, col)`. -/
theorem gemmLaunch_eq_foldl (A B Cbuf : Int → ℚ) (M N K : Int)
    (hgx : 0 ≤ (N + 16 - 1) / 16) (hgy : 0 ≤ (M + 16 - 1) / 16) :
    gemmLaunch A B Cbuf M N K
      = (rangePairs (16 * ((M + 16 - 1) / 16)).toNat
          (16 * ((N + 16 - 1) / 16)).toNat).foldl
          (fun f t => gemmThread A B f M N K (t.1 : Int) (t.2 : Int)) Cbuf := by
  unfold gemmLaunch
  have hx : ∀ (rr : Int) (s : Int → ℚ),
      forLoop (fun bX f3 => forLoop (fun tX f4 =>
        gemmThread A B f4 M N K rr (bX * 16 + tX)) 16 0 f3) ((N + 16 - 1) / 16) 0 s
        = forLoop (fun cc f3 => gemmThread A B f3 M N K rr cc)
            (16 * ((N + 16 - 1) / 16)) 0 s :=
    fun rr s => forLoop_blocks (fun cc f => gemmThread A B f M N K rr cc) _ hgx s
  simp only [hx]
  have hy : ∀ (s : Int → ℚ),
      forLoop (fun bY f1 => forLoop (fun tY f2 =>
        forLoop (fun cc f3 => gemmThread A B f3 M N K (bY * 16 + tY) cc)
          (16 * ((N + 16 - 1) / 16)) 0 f2) 16 0 f1) ((M + 16 - 1) / 16) 0 s
        = forLoop (fun rr f1 => forLoop (fun cc f3 => gemmThread A B f3 M N K rr cc)
            (16 * ((N + 16 - 1) / 16)) 0 f1) (16 * ((M + 16 - 1) / 16)) 0 s :=
    fun s => forLoop_blocks (fun rr f => forLoop
      (fun cc f3 => gemmThread A B f3 M N K rr cc) (16 * ((N + 16 - 1) / 16)) 0 f)
      _ hgy s
  simp only [hy]
  exact forLoop2_eq_foldl_pairs (fun rr cc f => gemmThread A B f M N K rr cc) _ _ Cbuf

/-- Reading the GEMM launch result at a valid `(row, col)` position. -/
theorem gemmLaunch_apply_valid (A B Cbuf : Int → ℚ) {M N K : ℕ}
    {row col : ℕ} (hrow : row < M) (hcol : col < N) :
    gemmLaunch A B Cbuf (M : Int) (N : Int) (K : Int) ((row * N + col : ℕ) : Int)
      = gemmThreadSum A B (M : Int) (N : Int) (K : Int) (row : Int) (col : Int) := by
  rw [gemmLaunch_eq_foldl A B Cbuf _ _ _ (by omega) (by omega)]
  simp only [gemmThread]
  have hkey := foldl_guard_update_of_mem
    (fun t : ℕ × ℕ => ((t.1 : ℕ) : Int) < (M : Int) ∧ ((t.2 : ℕ) : Int) < (N : Int))
    (fun t : ℕ × ℕ => (t.1 : Int) * (N : Int) + (t.2 : Int))
    (fun t : ℕ × ℕ => gemmThreadSum A B (M : Int) (N : Int) (K : Int)
      (t.1 : Int) (t.2 : Int))
    (row, col)
    (rangePairs (16 * (((M : Int) + 16 - 1) / 16)).toNat
      (16 * (((N : Int) + 16 - 1) / 16)).toNat) Cbuf
    (mem_rangePairs.mpr (by constructor <;> simp <;> omega))
    (by simp only; constructor <;> (push_cast; omega)) ?_
  · simp only at hkey
    have henc : ((row * N + col : ℕ) : Int) = (row : Int) * (N : Int) + (col : Int) := by
      push_cast
      ring
    rw [henc]
    exact hkey
  · rintro ⟨a, b⟩ hmem ⟨hp1, hp2⟩ he
    simp only at hp1 hp2 he
    rw [Nat.cast_lt] at hp1 hp2
    have he' : (a * N + b : ℕ) = (row * N + col : ℕ) := by
      have : ((a * N + b : ℕ) : Int) = ((row * N + col : ℕ) : Int) := by
        push_cast
        linarith [he]
      exact_mod_cast this
    obtain ⟨e1, e2⟩ := encode_pair_inj hp2 hcol he'
    simp [e1, e2]

/-- Combined host/device memory state for the GEMM program. -/
structure GpuState where
  hA : Int → ℚ
  hB : Int → ℚ
  hC : Int → ℚ
  dA : Int → ℚ
  dB : Int → ℚ
  dC : Int → ℚ

/-- `gemm_kernel_test` up to and including the kernel launch and
`cudaDeviceSynchronize`: `cudaMalloc` of `dA`, `dB`, `dC` (fresh
allocations, modelled zero-initialised), host-to-device copies of `A`
(`M*K` floats) and `B` (`K*N` floats), then the kernel launch writing
`dC`. -/
def gemmTestAfterLaunch (s : GpuState) (M N K : Int) : GpuState :=
  let s1 : GpuState := { s with dA := fun _ => 0, dB := fun _ => 0, dC := fun _ => 0 }
  let s2 : GpuState := { s1 with
    dA := memcpyBuf s1.dA s.hA (M * K),
    dB := memcpyBuf s1.dB s.hB (K * N) }
  { s2 with dC := gemmLaunch s2.dA s2.dB s2.dC M N K }

/-- Host wrapper `gemm_kernel_test` of the GEMM program: after the launch
and synchronize, the device-to-host copy of `C` is commented out in the
source ("Optional: don't copy back to host if purely measuring kernel
cycle"), and the three device buffers are freed. -/
def gemm_kernel_test (s : GpuState) (M N K : Int) : GpuState :=
  let s3 := gemmTestAfterLaunch s M N K
  { s3 with dA := fun _ => 0, dB := fun _ => 0, dC := fun _ => 0 }

/-- C8: `gemm_kernel_test` never writes the host buffers `A`, `B`, `C`:
for every initial host contents, each host buffer after the call equals
its contents before the call — in particular the result is never copied
back into the host `C`. -/
theorem gemm_kernel_test_preserves_host (s : GpuState) (M N K : Int) :
    (gemm_kernel_test s M N K).hA = s.hA
    ∧ (gemm_kernel_test s M N K).hB = s.hB
    ∧ (gemm_kernel_test s M N K).hC = s.hC :=
  ⟨rfl, rfl, rfl⟩

/-- Host buffers as initialised by `main` of the GEMM program
(`M = N = K = 64`): `A` and `B` hold `1.0f` on their `64*64` entries, `C`
holds `0.0f`; no device buffer is allocated yet. -/
def gemmMainState : GpuState where
  hA := fun i => if 0 ≤ i ∧ i < 64 * 64 then 1 else 0
  hB := fun i => if 0 ≤ i ∧ i < 64 * 64 then 1 else 0
  hC := fun _ => 0
  dA := fun _ => 0
  dB := fun _ => 0
  dC := fun _ => 0

/-- C2 as stated fails on the code: after `gemm_kernel_test` returns in
`main`, the host buffer `C` still holds `0.0f` at element `(0, 0)` — not
the matrix-product value `64.0f` — because the device-to-host copy at the
end of `gemm_kernel_test` is commented out. -/
theorem gemm_host_C_stays_zero :
    (gemm_kernel_test gemmMainState 64 64 64).hC ((0 * 64 + 0 : ℕ) : Int) = 0
    ∧ ¬ ((0 : ℚ) = 64) :=
  ⟨rfl, by norm_num⟩

set_option maxRecDepth 4096 in
/-- C2 amended: the kernel does compute the closed-form matrix product on
the device — after the launch, the device buffer `dC` holds
`64.0 = ∑ k < 64, 1 * 1` at every position `row*64+col` with
`row, col < 64` — but the host `C` buffer is left unchanged (all `0.0f`),
because the device-to-host copy is disabled in `gemm_kernel_test`. -/
theorem gemm_main_device_holds_product (row col : ℕ)
    (hrow : row < 64) (hcol : col < 64) :
    (gemmTestAfterLaunch gemmMainState 64 64 64).dC ((row * 64 + col : ℕ) : Int) = 64
    ∧ (gemm_kernel_test gemmMainState 64 64 64).hC = gemmMainState.hC := by
  refine ⟨?_, rfl⟩
  have hstep : (gemmTestAfterLaunch gemmMainState 64 64 64).dC
      = gemmLaunch (memcpyBuf (fun _ => 0) gemmMainState.hA ((64 : Int) * 64))
          (memcpyBuf (fun _ => 0) gemmMainState.hB ((64 : Int) * 64))
          (fun _ => 0) 64 64 64 := rfl
  rw [hstep]
  have happ := gemmLaunch_apply_valid
    (memcpyBuf (fun _ => 0) gemmMainState.hA ((64 : Int) * 64))
    (memcpyBuf (fun _ => 0) gemmMainState.hB ((64 : Int) * 64))
    (fun _ => 0) (K := 64) hrow hcol
  have hval : gemmThreadSum
      (memcpyBuf (fun _ => 0) gemmMainState.hA ((64 : Int) * 64))
      (memcpyBuf (fun _ => 0) gemmMainState.hB ((64 : Int) * 64))
      ((64 : ℕ) : Int) ((64 : ℕ) : Int) ((64 : ℕ) : Int) (row : Int) (col : Int)
      = 64 := by
    rw [gemmThreadSum_eq_naive _ _ _ _ _ _ _
      (by exact_mod_cast hrow) (by exact_mod_cast hcol) (by norm_num)]
    unfold gemmNaiveEntry
    have h64 : ((64 : ℕ) : Int).toNat = 64 := rfl
    rw [h64]
    have hterm : ∀ kk ∈ Finset.range 64,
        memcpyBuf (fun _ => 0) gemmMainState.hA ((64 : Int) * 64)
            ((row : Int) * ((64 : ℕ) : Int) + (kk : Int))
          * memcpyBuf (fun _ => 0) gemmMainState.hB ((64 : Int) * 64)
            ((kk : Int) * ((64 : ℕ) : Int) + (col : Int)) = 1 := by
      intro kk hkk
      rw [Finset.mem_range] at hkk
      have hbA : 0 ≤ (row : Int) * ((64 : ℕ) : Int) + (kk : Int)
          ∧ (row : Int) * ((64 : ℕ) : Int) + (kk : Int) < (64 : Int) * 64 := by
        push_cast
        omega
      have hbB : 0 ≤ (kk : Int) * ((64 : ℕ) : Int) + (col : Int)
          ∧ (kk : Int) * ((64 : ℕ) : Int) + (col : Int) < (64 : Int) * 64 := by
        push_cast
        omega
      have hA1 : memcpyBuf (fun _ => 0) gemmMainState.hA ((64 : Int) * 64)
          ((row : Int) * ((64 : ℕ) : Int) + (kk : Int)) = 1 := by
        simp only [memcpyBuf]
        rw [if_pos hbA]
        rw [show gemmMainState.hA
          = fun i : Int => if 0 ≤ i ∧ i < 64 * 64 then (1 : ℚ) else 0 from rfl]
        simp only []
        rw [if_pos (by push_cast; omega)]
      have hB1 : memcpyBuf (fun _ => 0) gemmMainState.hB ((64 : Int) * 64)
          ((kk : Int) * ((64 : ℕ) : Int) + (col : Int)) = 1 := by
        simp only [memcpyBuf]
        rw [if_pos hbB]
        rw [show gemmMainState.hB
          = fun i : Int => if 0 ≤ i ∧ i < 64 * 64 then (1 : ℚ) else 0 from rfl]
        simp only []
        rw [if_pos (by push_cast; omega)]
      rw [hA1, hB1, one_mul]
    rw [Finset.sum_congr rfl hterm]
    simp
  exact happ.trans hval

/-- Witness for `gemm_main_device_holds_product` at position `(0, 0)`. -/
theorem gemm_main_device_holds_product_witness :
    (gemmTestAfterLaunch gemmMainState 64 64 64).dC ((0 * 64 + 0 : ℕ) : Int) = 64
    ∧ (gemm_kernel_test gemmMainState 64 64 64).hC = gemmMainState.hC :=
  gemm_main_device_holds_product 0 0 (by decide) (by decide)

/-! ## Structural models: barriers, error checking, kernel launches -/

/-- Operations in the body of `gemm_kernel`. -/
inductive GemmKernelOp
  | computeTiledK
  | loadATile
  | loadBTile
  | syncthreads
  | macStep
  | condStore
deriving DecidableEq

/-- One iteration of the tile loop of `gemm_kernel` (src/gemm/gemm.cu
lines 32-56), in source order: compute `tiled_k`, the guarded load of the
`A` tile, the guarded load of the `B` tile, `__syncthreads()`, the
unrolled 16-step multiply-accumulate, and a second `__syncthreads()`. -/
def gemmTileIterOps : List GemmKernelOp :=
  [GemmKernelOp.computeTiledK, GemmKernelOp.loadATile, GemmKernelOp.loadBTile,
    GemmKernelOp.syncthreads]
  ++ List.replicate 16 GemmKernelOp.macStep
  ++ [GemmKernelOp.syncthreads]

/-- Number of tile iterations, `(K + TILE_K - 1) / TILE_K` with
`TILE_K = 16`. -/
def gemmNumTiles (K : Int) : ℕ := ((K + 16 - 1) / 16).toNat

/-- The full per-thread operation trace of `gemm_kernel`: the tile loop
followed by the guarded store of `sum` into `C`. -/
def gemmKernelTrace (K : Int) : List GemmKernelOp :=
  (List.range (gemmNumTiles K)).flatMap (fun _ => gemmTileIterOps)
    ++ [GemmKernelOp.condStore]

/-- C6 as stated is false: a tile iteration of `gemm_kernel` does not
execute exactly one barrier — it executes two (`gemm.cu` lines 48 and 55). -/
theorem not_one_barrier_per_tile_iter :
    ¬ (gemmTileIterOps.count GemmKernelOp.syncthreads = 1) := by
  decide

/-- C6 amended: each iteration of the tile loop of `gemm_kernel` executes
exactly two explicit barrier synchronizations (`__syncthreads`): one after
the tile loads and one after the tile computation; the whole kernel trace
thus contains `2 * ⌈K/16⌉` barriers. -/
theorem gemm_two_barriers_per_tile_iter :
    gemmTileIterOps.count GemmKernelOp.syncthreads = 2
    ∧ ∀ K : Int, (gemmKernelTrace K).count GemmKernelOp.syncthreads
        = 2 * gemmNumTiles K := by
  refine ⟨by decide, fun K => ?_⟩
  unfold gemmKernelTrace
  rw [List.count_append]
  have h1 : ∀ n : ℕ, (((List.range n).flatMap fun _ => gemmTileIterOps).count
      GemmKernelOp.syncthreads) = 2 * n := by
    intro n
    induction n with
    | zero => rfl
    | succ n ih =>
      rw [List.range_succ, List.flatMap_append, List.count_append, ih]
      have h2 : (([n].flatMap fun _ => gemmTileIterOps).count
          GemmKernelOp.syncthreads) = 2 := by
        rw [List.flatMap_cons, List.flatMap_nil, List.append_nil]
        decide
      rw [h2, Nat.mul_succ]
  rw [h1]
  rfl

/-- One CUDA runtime call site as it appears in a source file: whether the
call returns a `cudaError_t` status, and whether it is wrapped in the
`CHECK_CUDA` checking macro. -/
structure CudaCall where
  name : String
  returnsStatus : Bool
  wrapped : Bool
deriving DecidableEq

/-- `CHECK_CUDA(call)` (src/gemm/gemm.cu lines 5-11): if the returned
status `e` is not `cudaSuccess` (0), print the error and `exit(1)`;
otherwise continue.  `Except.error c` models process abort with exit code
`c`; there is no recovery, retry, or partial-failure path. -/
def CHECK_CUDA (e : ℕ) : Except ℕ Unit :=
  if e = 0 then Except.ok () else Except.error 1

/-- The CUDA call sites of `gemm_kernel_test` (src/gemm/gemm.cu), in
source order.  Every status-returning runtime call is wrapped in
`CHECK_CUDA`; the kernel launch statement itself returns no status. -/
def gemmCudaCalls : List CudaCall :=
  [⟨"cudaMalloc dA", true, true⟩, ⟨"cudaMalloc dB", true, true⟩,
   ⟨"cudaMalloc dC", true, true⟩, ⟨"cudaMemcpy dA A HostToDevice", true, true⟩,
   ⟨"cudaMemcpy dB B HostToDevice", true, true⟩,
   ⟨"gemm_kernel launch", false, false⟩,
   ⟨"cudaDeviceSynchronize", true, true⟩, ⟨"cudaFree dA", true, true⟩,
   ⟨"cudaFree dB", true, true⟩, ⟨"cudaFree dC", true, true⟩]

/-- The CUDA call sites of the GPGPU-Sim convolution host `conv2d`
(src/conv/gpgpusim/conv.cu lines 36-55), in source order: none is wrapped
in any checking macro — that file defines and uses no such macro. -/
def convCudaCalls : List CudaCall :=
  [⟨"cudaMalloc d_input", true, false⟩, ⟨"cudaMalloc d_weight", true, false⟩,
   ⟨"cudaMalloc d_output", true, false⟩,
   ⟨"cudaMemcpy d_input HostToDevice", true, false⟩,
   ⟨"cudaMemcpy d_weight HostToDevice", true, false⟩,
   ⟨"conv2d_kernel launch", false, false⟩,
   ⟨"cudaMemcpy output DeviceToHost", true, false⟩,
   ⟨"cudaFree d_input", true, false⟩, ⟨"cudaFree d_weight", true, false⟩,
   ⟨"cudaFree d_output", true, false⟩]

/-- A call site is checked when, if it returns a status, that status goes
through the checking macro. -/
def checkedCall (c : CudaCall) : Bool := !c.returnsStatus || c.wrapped

/-- C4 as stated is false: it is not the case that in both programs every
status-returning device-API call is checked by the macro — in the
GPGPU-Sim convolution program no CUDA call is checked at all. -/
theorem not_all_cuda_calls_checked :
    ¬ (gemmCudaCalls.all checkedCall = true
        ∧ convCudaCalls.all checkedCall = true) := by
  decide

/-- C4 amended: in the GEMM program every status-returning CUDA call is
wrapped in `CHECK_CUDA`, which on any failing status aborts the process
with nonzero exit status and performs no recovery or retry; in the
GPGPU-Sim convolution program, by contrast, no CUDA call is checked. -/
theorem cuda_error_checking_split :
    gemmCudaCalls.all checkedCall = true
    ∧ convCudaCalls.all (fun c => ! c.wrapped) = true
    ∧ (∀ e : ℕ, e ≠ 0 → CHECK_CUDA e = Except.error 1)
    ∧ CHECK_CUDA 0 = Except.ok () := by
  refine ⟨by decide, by decide, fun e he => ?_, rfl⟩
  unfold CHECK_CUDA
  rw [if_neg he]

/-- Witness for `cuda_error_checking_split` at the failing status 5. -/
theorem cuda_error_checking_split_witness :
    (5 : ℕ) ≠ 0 ∧ CHECK_CUDA 5 = Except.error 1 :=
  ⟨by decide, cuda_error_checking_split.2.2.1 5 (by decide)⟩

/-- Top-level operations of a benchmark program run. -/
inductive ProgOp
  | statsCall
  | hostAlloc
  | hostInit
  | seqConvLoops
  | deviceAlloc
  | copyToDevice
  | kernelLaunch
  | copyToHost
  | deviceFree
  | hostFree
deriving DecidableEq

/-- The gem5 convolution program (src/unnamed/part_000, `main` calling the
sequential `conv2d`): stats reset, three host allocations, two host init
loops, the purely sequential six-nested-loop `conv2d`, three host frees,
stats dump.  No device operation of any kind appears. -/
def gem5ConvProgramOps : List ProgOp :=
  [ProgOp.statsCall, ProgOp.hostAlloc, ProgOp.hostAlloc, ProgOp.hostAlloc,
   ProgOp.hostInit, ProgOp.hostInit, ProgOp.seqConvLoops,
   ProgOp.hostFree, ProgOp.hostFree, ProgOp.hostFree, ProgOp.statsCall]

/-- The GPGPU-Sim convolution program (src/conv/gpgpusim/conv.cu, `main`
calling the host `conv2d`): host allocations and init, three device
allocations, two host-to-device copies, the `conv2d_kernel` GPU kernel
launch, the device-to-host result copy, device and host frees. -/
def gpgpusimConvProgramOps : List ProgOp :=
  [ProgOp.hostAlloc, ProgOp.hostAlloc, ProgOp.hostAlloc,
   ProgOp.hostInit, ProgOp.hostInit,
   ProgOp.deviceAlloc, ProgOp.deviceAlloc, ProgOp.deviceAlloc,
   ProgOp.copyToDevice, ProgOp.copyToDevice, ProgOp.kernelLaunch,
   ProgOp.copyToHost, ProgOp.deviceFree, ProgOp.deviceFree, ProgOp.deviceFree,
   ProgOp.hostFree, ProgOp.hostFree, ProgOp.hostFree]

/-- C7 as stated is false: not every convolution program in the repository
is free of GPU kernel launches — the GPGPU-Sim convolution program
launches `conv2d_kernel`. -/
theorem not_every_conv_sequential :
    ¬ (ProgOp.kernelLaunch ∉ gem5ConvProgramOps
        ∧ ProgOp.kernelLaunch ∉ gpgpusimConvProgramOps) := by
  decide

/-- C7 amended: the gem5 convolution program is entirely sequential — its
trace contains no kernel launch and no device operation at all — while the
GPGPU-Sim convolution program does launch a GPU kernel (`conv2d_kernel`),
so its convolution executes in parallel on the device. -/
theorem conv_sequential_split :
    ProgOp.kernelLaunch ∉ gem5ConvProgramOps
    ∧ ProgOp.deviceAlloc ∉ gem5ConvProgramOps
    ∧ ProgOp.copyToDevice ∉ gem5ConvProgramOps
    ∧ ProgOp.kernelLaunch ∈ gpgpusimConvProgramOps := by
  exact ⟨by decide, by decide, by decide, by decide⟩
